import Mathlib

/-!
Verification of the biosal core against its specification.

This file gives a shallow embedding of the parts of the biosal repository
that the checked claims are about:

- the memory pool (bsal_memory_pool_allocate, bsal_memory_pool_free,
  bsal_memory_pool_free_all, bsal_memory_pool_normalize_segment_length),
- the sequence partitioner handshake (bsal_sequence_partitioner_verify),
- the red-black tree (bsal_red_black_tree_delete, bsal_red_black_tree_get).

Machine pointers are modelled as natural numbers with 0 playing the role of
NULL; the system allocator is modelled as a monotone address counter threaded
through the pool state, so every system allocation returns a fresh non-null
address.  Machine integers are natural numbers with explicit reduction
modulo 2 to the 32 or 2 to the 64 where the C code can overflow.
-/

/-- Association-list lookup, modelling bsal_map_get / bsal_map_get_value:
the first entry whose key matches is returned. -/
def mapGet {A : Type} : List (Nat × A) → Nat → Option A
  | [], _ => none
  | (k, v) :: t, key => if k = key then some v else mapGet t key

/-- Association-list insert-or-update, modelling bsal_map_add_value: the first
entry whose key matches is replaced; a missing key is appended at the end. -/
def mapInsert {A : Type} : List (Nat × A) → Nat → A → List (Nat × A)
  | [], key, value => [(key, value)]
  | (k, v) :: t, key, value =>
    if k = key then (key, value) :: t else (k, v) :: mapInsert t key value

/-- Association-list delete, modelling bsal_map_delete: the first entry whose
key matches is removed. -/
def mapDelete {A : Type} : List (Nat × A) → Nat → List (Nat × A)
  | [], _ => []
  | (k, v) :: t, key => if k = key then t else (k, v) :: mapDelete t key

/-- Set insertion, modelling bsal_set_add on a set of pointers. -/
def setAdd (s : List Nat) (x : Nat) : List Nat := if x ∈ s then s else x :: s

/-- Modelled from the spec: struct bsal_memory_block, the bump allocator
block owned by a pool (its source file is not part of this extract).
A block owns the address range from base to base + capacity and hands out
addresses from base + offset upward. -/
structure bsal_memory_block where
  base : Nat
  capacity : Nat
  offset : Nat
deriving Repr, DecidableEq

/-- Modelled from the spec: bsal_memory_block_allocate bump-allocates size
bytes from the block, returning NULL (0) when the request does not fit. -/
def bsal_memory_block_allocate (b : bsal_memory_block) (size : Nat) :
    Nat × bsal_memory_block :=
  if b.offset + size ≤ b.capacity then
    (b.base + b.offset, { b with offset := b.offset + size })
  else
    (0, b)

/-- Modelled from the spec: bsal_memory_block_free_all resets the bump
pointer of a block without freeing the underlying memory. -/
def bsal_memory_block_free_all (b : bsal_memory_block) : bsal_memory_block :=
  { b with offset := 0 }

/-- The state of struct bsal_memory_pool.  The recycle bin maps a size to the
FIFO queue of freed pointers of that size; allocated_blocks maps an in-use
pointer to its size; large_blocks is the set of pointers served directly by
the system; next_address models the system allocator frontier. -/
structure bsal_memory_pool where
  recycle_bin : List (Nat × List Nat)
  allocated_blocks : List (Nat × Nat)
  large_blocks : List Nat
  current_block : Option bsal_memory_block
  dried_blocks : List bsal_memory_block
  ready_blocks : List bsal_memory_block
  block_size : Nat
  flag_tracking : Bool
  flag_disabled : Bool
  flag_normalization : Bool
  next_address : Nat
deriving Repr, DecidableEq

/-- bsal_memory_pool_init: empty structures, tracking enabled, normalization
and disabled flags cleared. -/
def bsal_memory_pool_init (block_size : Nat) : bsal_memory_pool :=
  ⟨[], [], [], none, [], [], block_size, true, false, false, 1⟩

/-- bsal_memory_pool_add_block: pick a block from the ready list, otherwise
create one on demand with capacity block_size. -/
def bsal_memory_pool_add_block (self : bsal_memory_pool) : bsal_memory_pool :=
  match self.ready_blocks with
  | b :: rest => { self with current_block := some b, ready_blocks := rest }
  | [] =>
    { self with
      current_block := some ⟨self.next_address, self.block_size, 0⟩,
      next_address := self.next_address + self.block_size }

/-- The step of bsal_memory_pool_allocate_private that establishes a current
block when there is none. -/
def poolEnsureBlock (self : bsal_memory_pool) : bsal_memory_pool :=
  match self.current_block with
  | none => bsal_memory_pool_add_block self
  | some _ => self

/-- The bump-allocation path of bsal_memory_pool_allocate_private: try the
current block; if it is exhausted, retire it to the dried queue, pull or
create a new block and try once more. -/
def poolBumpAllocate (self : bsal_memory_pool) (size : Nat) :
    Nat × bsal_memory_pool :=
  match self.current_block with
  | none => (0, self)
  | some cur =>
    let r := bsal_memory_block_allocate cur size
    if r.1 = 0 then
      let s2 : bsal_memory_pool :=
        { self with dried_blocks := self.dried_blocks ++ [cur], current_block := none }
      let s3 := bsal_memory_pool_add_block s2
      match s3.current_block with
      | none => (0, s3)
      | some cur2 =>
        let r2 := bsal_memory_block_allocate cur2 size
        (r2.1, { s3 with current_block := some r2.2 })
    else
      (r.1, { self with current_block := some r.2 })

/-- The tail of bsal_memory_pool_allocate_private when the recycle bin does
not serve the request: ensure a current block, bump-allocate, and record the
pointer in the allocated-blocks map when tracking is on. -/
def poolBumpPath (self : bsal_memory_pool) (size : Nat) : Nat × bsal_memory_pool :=
  let s1 := poolEnsureBlock self
  let r := poolBumpAllocate s1 size
  if r.2.flag_tracking then
    (r.1, { r.2 with allocated_blocks := mapInsert r.2.allocated_blocks r.1 size })
  else
    r

/-- bsal_memory_pool_allocate_private.  Returns the pointer (0 meaning NULL)
and the updated pool.  A zero-size request returns NULL; a disabled pool goes
straight to the system; a request of at least block_size is served by the
system and recorded in the large-block set; otherwise the recycle bin is
consulted (when tracking is on) before bump allocation, and the handed-out
pointer is recorded in the allocated-blocks map when tracking is on. -/
def bsal_memory_pool_allocate_private (self : bsal_memory_pool) (size : Nat) :
    Nat × bsal_memory_pool :=
  if size = 0 then (0, self)
  else if self.flag_disabled then
    (self.next_address, { self with next_address := self.next_address + size })
  else if self.block_size ≤ size then
    (self.next_address,
      { self with
        large_blocks := setAdd self.large_blocks self.next_address,
        next_address := self.next_address + size })
  else
    match (if self.flag_tracking then mapGet self.recycle_bin size else none) with
    | some (pointer :: rest) =>
      let s1 : bsal_memory_pool :=
        { self with recycle_bin := mapInsert self.recycle_bin size rest }
      if s1.flag_tracking then
        (pointer, { s1 with allocated_blocks := mapInsert s1.allocated_blocks pointer size })
      else
        (pointer, s1)
    | _ => poolBumpPath self size

/-- The bit-twiddle cascade from bsal_memory_pool_normalize_segment_length
(the Stanford bit hack): five shift-or steps on a 32-bit value. -/
def bsal_memory_pool_normalize_cascade (v : Nat) : Nat :=
  let v1 := v ||| (v >>> 1)
  let v2 := v1 ||| (v1 >>> 2)
  let v3 := v2 ||| (v2 >>> 4)
  let v4 := v3 ||| (v3 >>> 8)
  v4 ||| (v4 >>> 16)

/-- The 32-bit branch of bsal_memory_pool_normalize_segment_length: the value
is decremented, run through the shift-or cascade and incremented, all in
unsigned 32-bit arithmetic. -/
def bsal_memory_pool_normalize_bit_twiddle (size : Nat) : Nat :=
  let value := size % 4294967296
  let value := (value + 4294967296 - 1) % 4294967296
  (bsal_memory_pool_normalize_cascade value + 1) % 4294967296

/-- The manual branch of bsal_memory_pool_normalize_segment_length: double a
64-bit return_value starting from 1 until it reaches size.  The fuel makes
the loop a total function; none models the C loop never terminating, which
happens when return_value wraps around to 0. -/
def iterativeDoubling : Nat → Nat → Nat → Option Nat
  | 0, _, _ => none
  | fuel + 1, size, rv =>
    if rv < size then iterativeDoubling fuel size ((rv * 2) % 18446744073709551616)
    else some rv

/-- bsal_memory_pool_normalize_segment_length: round the size up to the next
power of two, using the bit-twiddle branch for sizes that fit in 32 bits and
the iterative-doubling branch above that.  The self argument of the C
function is unused there and is dropped here. -/
def bsal_memory_pool_normalize_segment_length (size : Nat) : Option Nat :=
  if 4294967295 < size then iterativeDoubling 65 size 1
  else some (bsal_memory_pool_normalize_bit_twiddle size)

/-- The size actually requested from bsal_memory_pool_allocate_private by
bsal_memory_pool_allocate: the raw size, or its normalization when the
normalization flag is set (none when the normalization loop diverges). -/
def poolRequestSize (self : bsal_memory_pool) (size : Nat) : Option Nat :=
  if self.flag_normalization then bsal_memory_pool_normalize_segment_length size
  else some size

/-- Outcome of the public bsal_memory_pool_allocate: a returned non-null
pointer with the new pool state, the exit(1) abort path, or divergence
inside normalization. -/
inductive AllocateResult where
  | ok (pointer : Nat) (pool : bsal_memory_pool)
  | abortExit
  | hang
deriving Repr, DecidableEq

/-- bsal_memory_pool_allocate: normalize the size when requested, call the
private allocator, and abort the process (exit 1, after printing a stack
backtrace) when the private allocator returned NULL. -/
def bsal_memory_pool_allocate (self : bsal_memory_pool) (size : Nat) :
    AllocateResult :=
  match poolRequestSize self size with
  | none => AllocateResult.hang
  | some s =>
    let r := bsal_memory_pool_allocate_private self s
    if r.1 = 0 then AllocateResult.abortExit else AllocateResult.ok r.1 r.2

/-- The recycle-bin update done by bsal_memory_pool_free: enqueue the pointer
into the queue for its size, creating the queue when missing. -/
def binEnqueue (bin : List (Nat × List Nat)) (size pointer : Nat) :
    List (Nat × List Nat) :=
  match mapGet bin size with
  | none => bin ++ [(size, [pointer])]
  | some q => mapInsert bin size (q ++ [pointer])

/-- bsal_memory_pool_free: NULL is ignored; a disabled pool frees to the
system; a large block is system-freed and removed from the large-block set;
with tracking off nothing happens; an untracked pointer is ignored; a tracked
pointer moves from the allocated-blocks map into the recycle bin. -/
def bsal_memory_pool_free (self : bsal_memory_pool) (pointer : Nat) :
    bsal_memory_pool :=
  if pointer = 0 then self
  else if self.flag_disabled then self
  else if pointer ∈ self.large_blocks then
    { self with large_blocks := self.large_blocks.erase pointer }
  else if self.flag_tracking = false then self
  else
    match mapGet self.allocated_blocks pointer with
    | none => self
    | some size =>
      { self with
        recycle_bin := binEnqueue self.recycle_bin size pointer,
        allocated_blocks := mapDelete self.allocated_blocks pointer }

/-- bsal_memory_pool_free_all: reset the bump pointer of the current block
and of every ready block (the ready queue is rotated in place), then drain
the dried queue, resetting each block and moving it to the ready queue. -/
def bsal_memory_pool_free_all (self : bsal_memory_pool) : bsal_memory_pool :=
  { self with
    current_block := Option.map bsal_memory_block_free_all self.current_block,
    ready_blocks := self.ready_blocks.map bsal_memory_block_free_all
      ++ self.dried_blocks.map bsal_memory_block_free_all,
    dried_blocks := [] }

/-- Conversion of a C int to uint64_t, as done by the arithmetic conversions
in bsal_sequence_partitioner_verify (two-complement reduction modulo 2^64). -/
def intToU64 (i : Int) : Nat := (i % 18446744073709551616).toNat

/-- The store-entries loop of bsal_sequence_partitioner_verify: push the
current entry count, subtract it from the remaining total (64-bit unsigned
arithmetic) and clamp the next count to what remains. -/
def bsal_sequence_partitioner_store_loop : Nat → Nat → Nat → List Nat
  | 0, _, _ => []
  | n + 1, entries, remaining =>
    let remaining2 := (remaining + 18446744073709551616 - entries) % 18446744073709551616
    let entries2 := if remaining2 < entries then remaining2 else entries
    entries :: bsal_sequence_partitioner_store_loop n entries2 remaining2

/-- bsal_sequence_partitioner_verify, as a function of the three received
parameters.  It returns none while block_size or store_count is still -1 or
the entry vector is empty (the C function returns without replying), and
otherwise returns the vector pushed into store_entries, which the function
packs into the PROVIDE_STORE_ENTRY_COUNTS reply.  Stream entries and the
running totals are uint64_t. -/
def bsal_sequence_partitioner_verify (block_size store_count : Int)
    (stream_entries : List Nat) : Option (List Nat) :=
  if block_size = -1 then none
  else if store_count = -1 then none
  else if stream_entries.length = 0 then none
  else
    let total := stream_entries.foldl (fun acc e => (acc + e) % 18446744073709551616) 0
    let entries := total / intToU64 store_count
    let entries := if entries < intToU64 block_size then intToU64 block_size else entries
    some (bsal_sequence_partitioner_store_loop store_count.toNat entries total)

/-- Node colors of the red-black tree. -/
inductive RBColor where
  | red
  | black
deriving Repr, DecidableEq

/-- The linked nodes of struct bsal_red_black_tree (struct
bsal_red_black_node), with keys and values as natural numbers. -/
inductive RBNode where
  | nil
  | node (key : Nat) (value : Nat) (color : RBColor) (left right : RBNode)
deriving Repr, DecidableEq

/-- The state of struct bsal_red_black_tree that the delete and get paths
read: the root, the size counter, and the cached lowest node, represented as
the path from the root to that node (false = left child, true = right
child).  The parent pointer of a node is recovered by dropping the last step
of its path. -/
structure bsal_red_black_tree where
  root : RBNode
  size : Nat
  cached_lowest : Option (List Bool)
deriving Repr, DecidableEq

/-- Key and value stored at a path in the tree, none when the path leaves the
tree. -/
def RBNode.at : RBNode → List Bool → Option (Nat × Nat)
  | RBNode.nil, _ => none
  | RBNode.node k v _ _ _, [] => some (k, v)
  | RBNode.node _ _ _ l r, d :: p => RBNode.at (if d then r else l) p

/-- The three-way comparison used by the tree (the default comparator is
memcmp on the key bytes; on equal-size numeric keys its sign agrees with this
order, and bsal_red_black_tree_compare_uint64_t is exactly this). -/
def bsal_red_black_tree_compare (key1 key2 : Nat) : Int :=
  if key1 < key2 then -1 else if key2 < key1 then 1 else 0

/-- The search loop of bsal_red_black_tree_get.  The cached_last_node fast
path of the C function compares the address of the caller key buffer with
the address of the node key buffer, which is false whenever the caller
passes its own key copy, so it is not part of the model. -/
def bsal_red_black_tree_get_node : RBNode → Nat → Option Nat
  | RBNode.nil, _ => none
  | RBNode.node k v _ l r, key =>
    if bsal_red_black_tree_compare key k < 0 then bsal_red_black_tree_get_node l key
    else if 0 < bsal_red_black_tree_compare key k then bsal_red_black_tree_get_node r key
    else some v

/-- bsal_red_black_tree_get: search from the root. -/
def bsal_red_black_tree_get (self : bsal_red_black_tree) (key : Nat) : Option Nat :=
  bsal_red_black_tree_get_node self.root key

/-- bsal_red_black_tree_delete.  On an empty tree it returns at once.
Otherwise it reads the key of the cached lowest node (none models the NULL
dereference that the BSAL_DEBUGGER_ASSERT in the source guards against),
moves the lowest-key cache to the parent node when the deleted key is the
cached lowest key, and decrements the size counter.  No node is unlinked
from the tree. -/
def bsal_red_black_tree_delete (self : bsal_red_black_tree) (key : Nat) :
    Option bsal_red_black_tree :=
  if self.size = 0 then some self
  else
    match self.cached_lowest with
    | none => none
    | some path =>
      match self.root.at path with
      | none => none
      | some (lowest_key, _) =>
        some { self with
          size := self.size - 1,
          cached_lowest :=
            if bsal_red_black_tree_compare key lowest_key = 0 then
              (if path = [] then none else some path.dropLast)
            else self.cached_lowest }

/-- Spec-side definition, following the words of the specification: result is
the smallest power of two that is greater than or equal to size. -/
def IsNextPowerOfTwo (size result : Nat) : Prop :=
  (∃ k, result = 2 ^ k) ∧ size ≤ result ∧
    ∀ m k, m = 2 ^ k → size ≤ m → result ≤ m

/-- Lookup after insert-or-update finds the inserted value. -/
theorem mapGet_mapInsert_self {A : Type} (m : List (Nat × A)) (k : Nat) (v : A) :
    mapGet (mapInsert m k v) k = some v := by
  induction m with
  | nil => simp [mapInsert, mapGet]
  | cons e t ih =>
    obtain ⟨ek, ev⟩ := e
    by_cases h : ek = k
    · simp [mapInsert, h, mapGet]
    · simp [mapInsert, h, mapGet, ih]

/-- Lookup in an extended association list when the key was absent. -/
theorem mapGet_append_of_none {A : Type} (m : List (Nat × A)) (k : Nat) (v : A)
    (h : mapGet m k = none) : mapGet (m ++ [(k, v)]) k = some v := by
  induction m with
  | nil => simp [mapGet]
  | cons e t ih =>
    obtain ⟨ek, ev⟩ := e
    by_cases hk : ek = k
    · simp [mapGet, hk] at h
    · simp [mapGet, hk] at h ⊢
      exact ih h

/-- C1: with block_size 4096, entry vector [10000] and store count 3, the
verify step of the sequence partitioner pushes the store entry counts
[4096, 4096, 1808] in that order and packs them into the
PROVIDE_STORE_ENTRY_COUNTS reply; the three counts sum to 10000 and the
first two equal the block size. -/
theorem claim_C1_sequence_partitioner_handshake :
    bsal_sequence_partitioner_verify 4096 3 [10000] = some [4096, 4096, 1808] ∧
    ([4096, 4096, 1808] : List Nat).sum = 10000 ∧
    ([4096, 4096, 1808] : List Nat).take 2 = [4096, 4096] := by
  refine ⟨by decide, by decide, by decide⟩

/-- C10: deleting from a red-black tree of size 0 leaves the tree unchanged,
and deleting a present key from a non-empty tree (whose lowest-node cache
points at a node, as the assertion in the source demands) decrements the
size by exactly one while leaving the node structure intact, so a subsequent
get with the deleted key still returns the previously stored value. -/
theorem claim_C10_delete_updates_only_size_and_cache
    (t : bsal_red_black_tree) (k v : Nat) (path : List Bool) :
    (t.size = 0 → bsal_red_black_tree_delete t k = some t) ∧
    (0 < t.size → t.cached_lowest = some path → (t.root.at path).isSome →
      bsal_red_black_tree_get t k = some v →
      ∃ t2, bsal_red_black_tree_delete t k = some t2 ∧
        t2.size = t.size - 1 ∧ t2.root = t.root ∧
        bsal_red_black_tree_get t2 k = some v) := by
  constructor
  · intro h
    simp [bsal_red_black_tree_delete, h]
  · intro hpos hcache hat hget
    obtain ⟨⟨lk, lv⟩, hat2⟩ := Option.isSome_iff_exists.mp hat
    refine ⟨{ t with
        size := t.size - 1,
        cached_lowest :=
          if bsal_red_black_tree_compare k lk = 0 then
            (if path = [] then none else some path.dropLast)
          else t.cached_lowest }, ?_, rfl, rfl, ?_⟩
    · unfold bsal_red_black_tree_delete
      rw [if_neg (by omega), hcache]
      simp [hat2, hcache]
    · simpa [bsal_red_black_tree_get] using hget

/-- Concrete instance of the C10 theorem: a one-node tree storing value 7
under key 5; deleting key 5 keeps the node reachable. -/
theorem claim_C10_witness :
    ∃ t2, bsal_red_black_tree_delete
        ⟨RBNode.node 5 7 RBColor.black RBNode.nil RBNode.nil, 1, some []⟩ 5 = some t2 ∧
      t2.size = 1 - 1 ∧
      t2.root = RBNode.node 5 7 RBColor.black RBNode.nil RBNode.nil ∧
      bsal_red_black_tree_get t2 5 = some 7 :=
  (claim_C10_delete_updates_only_size_and_cache
    ⟨RBNode.node 5 7 RBColor.black RBNode.nil RBNode.nil, 1, some []⟩ 5 7 []).2
    (by decide) rfl (by decide) (by decide)

/-- C4: in tracking-enabled mode, free_all resets the bump pointer of the
current block and of every ready and dried block, moves every dried block
into the ready queue (in order, after the reset ready blocks), and leaves
the recycle bin, the allocated-blocks map and the large-block set exactly
as they were. -/
theorem claim_C4_free_all_resets_blocks (self : bsal_memory_pool)
    (htrack : self.flag_tracking = true) :
    (∀ b, (bsal_memory_pool_free_all self).current_block = some b → b.offset = 0) ∧
    (∀ b ∈ (bsal_memory_pool_free_all self).ready_blocks, b.offset = 0) ∧
    (bsal_memory_pool_free_all self).current_block =
      Option.map bsal_memory_block_free_all self.current_block ∧
    (bsal_memory_pool_free_all self).ready_blocks =
      self.ready_blocks.map bsal_memory_block_free_all
        ++ self.dried_blocks.map bsal_memory_block_free_all ∧
    (bsal_memory_pool_free_all self).dried_blocks = [] ∧
    (bsal_memory_pool_free_all self).recycle_bin = self.recycle_bin ∧
    (bsal_memory_pool_free_all self).allocated_blocks = self.allocated_blocks ∧
    (bsal_memory_pool_free_all self).large_blocks = self.large_blocks := by
  refine ⟨?_, ?_, rfl, rfl, rfl, rfl, rfl, rfl⟩
  · intro b hb
    cases h : self.current_block with
    | none => simp [bsal_memory_pool_free_all, h] at hb
    | some c =>
      simp [bsal_memory_pool_free_all, h] at hb
      simp [← hb, bsal_memory_block_free_all]
  · intro b hb
    simp [bsal_memory_pool_free_all, List.mem_append, List.mem_map] at hb
    rcases hb with ⟨c, _, hc⟩ | ⟨c, _, hc⟩ <;>
      simp [← hc, bsal_memory_block_free_all]

/-- Concrete instance of the C4 theorem, on a pool holding one ready and one
dried block with nonzero bump offsets. -/
theorem claim_C4_witness :
    (bsal_memory_pool_free_all
        ⟨[], [], [], some ⟨1, 8, 5⟩, [⟨9, 8, 8⟩], [⟨17, 8, 3⟩], 8, true, false, false, 25⟩).ready_blocks =
      [⟨17, 8, 0⟩, ⟨9, 8, 0⟩] ∧
    (bsal_memory_pool_free_all
        ⟨[], [], [], some ⟨1, 8, 5⟩, [⟨9, 8, 8⟩], [⟨17, 8, 3⟩], 8, true, false, false, 25⟩).current_block =
      some ⟨1, 8, 0⟩ := by
  have h := claim_C4_free_all_resets_blocks
    ⟨[], [], [], some ⟨1, 8, 5⟩, [⟨9, 8, 8⟩], [⟨17, 8, 3⟩], 8, true, false, false, 25⟩ rfl
  exact ⟨h.2.2.2.1.trans (by decide), h.2.2.1.trans (by decide)⟩

/-- C6: with tracking enabled, freeing a pointer that is neither a large
block nor recorded in the allocated-blocks map (a double free or a foreign
pointer) leaves the pool state exactly as it was. -/
theorem claim_C6_free_unknown_pointer_noop (self : bsal_memory_pool) (p : Nat)
    (htrack : self.flag_tracking = true) (hdis : self.flag_disabled = false)
    (hlarge : p ∉ self.large_blocks)
    (hmap : mapGet self.allocated_blocks p = none) :
    bsal_memory_pool_free self p = self := by
  by_cases hp : p = 0 <;>
    simp [bsal_memory_pool_free, hp, hdis, hlarge, htrack, hmap]

/-- Concrete instance of the C6 theorem: freeing the untracked pointer 42
from a fresh pool changes nothing. -/
theorem claim_C6_witness :
    bsal_memory_pool_free (bsal_memory_pool_init 64) 42 = bsal_memory_pool_init 64 :=
  claim_C6_free_unknown_pointer_noop (bsal_memory_pool_init 64) 42 rfl rfl
    (by decide) rfl

/-- C3: the public allocate never hands NULL to its caller: whenever the
private allocator yields NULL the engine aborts the process (after printing
a stack backtrace), and otherwise the non-null private pointer is returned
unchanged. -/
theorem claim_C3_allocate_never_returns_null (self : bsal_memory_pool) (size : Nat) :
    (∀ p st, bsal_memory_pool_allocate self size = AllocateResult.ok p st → p ≠ 0) ∧
    (∀ s, poolRequestSize self size = some s →
      ((bsal_memory_pool_allocate_private self s).1 = 0 →
        bsal_memory_pool_allocate self size = AllocateResult.abortExit) ∧
      ((bsal_memory_pool_allocate_private self s).1 ≠ 0 →
        bsal_memory_pool_allocate self size =
          AllocateResult.ok (bsal_memory_pool_allocate_private self s).1
            (bsal_memory_pool_allocate_private self s).2)) := by
  cases hreq : poolRequestSize self size with
  | none =>
    constructor
    · intro p st h
      simp [bsal_memory_pool_allocate, hreq] at h
    · intro s hs
      simp [hreq] at hs
  | some s =>
    constructor
    · intro p st h
      simp only [bsal_memory_pool_allocate, hreq] at h
      by_cases h0 : (bsal_memory_pool_allocate_private self s).1 = 0
      · simp [h0] at h
      · simp [h0] at h
        omega
    · intro s2 hs2
      have hss : s2 = s := (Option.some_inj.mp hs2).symm
      subst hss
      constructor
      · intro h0
        simp [bsal_memory_pool_allocate, hreq, h0]
      · intro h0
        simp [bsal_memory_pool_allocate, hreq, h0]

/-- Concrete instance of the C3 theorem: a fresh pool with block size 64
serves a 16-byte request with the non-null private pointer. -/
theorem claim_C3_witness :
    bsal_memory_pool_allocate (bsal_memory_pool_init 64) 16 =
      AllocateResult.ok (bsal_memory_pool_allocate_private (bsal_memory_pool_init 64) 16).1
        (bsal_memory_pool_allocate_private (bsal_memory_pool_init 64) 16).2 :=
  ((claim_C3_allocate_never_returns_null (bsal_memory_pool_init 64) 16).2 16 rfl).2
    (by decide)

/-- C7: on an enabled pool, a request of at least block_size bytes is served
directly by the system and recorded in the large-block set, bypassing the
recycle bin and the bump blocks; a subsequent free of that pointer
system-frees it and removes it from the large-block set, leaving every other
pool component unchanged. -/
theorem claim_C7_large_block_passthrough (self : bsal_memory_pool) (size : Nat)
    (hdis : self.flag_disabled = false) (hnorm : self.flag_normalization = false)
    (hbs : self.block_size ≤ size) (hpos : 0 < size)
    (hfresh : self.next_address ∉ self.large_blocks)
    (hnull : self.next_address ≠ 0) :
    ∃ st, bsal_memory_pool_allocate self size = AllocateResult.ok self.next_address st ∧
      st.large_blocks = self.next_address :: self.large_blocks ∧
      st.recycle_bin = self.recycle_bin ∧
      st.allocated_blocks = self.allocated_blocks ∧
      st.current_block = self.current_block ∧
      st.dried_blocks = self.dried_blocks ∧
      st.ready_blocks = self.ready_blocks ∧
      bsal_memory_pool_free st self.next_address =
        { self with next_address := self.next_address + size } := by
  have hset : setAdd self.large_blocks self.next_address =
      self.next_address :: self.large_blocks := by
    simp [setAdd, hfresh]
  have hpriv : bsal_memory_pool_allocate_private self size =
      (self.next_address,
        { self with
          large_blocks := self.next_address :: self.large_blocks,
          next_address := self.next_address + size }) := by
    unfold bsal_memory_pool_allocate_private
    rw [if_neg (by omega), if_neg (by simp [hdis]), if_pos hbs, hset]
  refine ⟨{ self with
      large_blocks := self.next_address :: self.large_blocks,
      next_address := self.next_address + size }, ?_, rfl, rfl, rfl, rfl, rfl, rfl, ?_⟩
  · simp [bsal_memory_pool_allocate, poolRequestSize, hnorm, hpriv, hnull]
  · unfold bsal_memory_pool_free
    rw [if_neg hnull, if_neg (by simp [hdis]), if_pos (by simp)]
    simp

/-- Concrete instance of the C7 theorem: a 100-byte request on a fresh pool
with block size 64. -/
theorem claim_C7_witness :
    ∃ st, bsal_memory_pool_allocate (bsal_memory_pool_init 64) 100 =
        AllocateResult.ok 1 st ∧
      st.large_blocks = [1] ∧
      st.recycle_bin = [] ∧
      st.allocated_blocks = [] ∧
      st.current_block = none ∧
      st.dried_blocks = [] ∧
      st.ready_blocks = [] ∧
      bsal_memory_pool_free st 1 = ⟨[], [], [], none, [], [], 64, true, false, false, 101⟩ :=
  claim_C7_large_block_passthrough (bsal_memory_pool_init 64) 100 rfl rfl
    (by decide) (by decide) (by decide) (by decide)

/-- C8: with tracking enabled, freeing a tracked pointer p of size s (below
block_size) whose recycle-bin queue is empty and then allocating s bytes
again returns exactly p, re-recorded in the allocated-blocks map. -/
theorem claim_C8_recycle_roundtrip (self : bsal_memory_pool) (p s : Nat)
    (htrack : self.flag_tracking = true) (hdis : self.flag_disabled = false)
    (hnorm : self.flag_normalization = false) (hp : p ≠ 0)
    (hlarge : p ∉ self.large_blocks)
    (hsize : mapGet self.allocated_blocks p = some s)
    (hspos : 0 < s) (hsmall : s < self.block_size)
    (hbin : mapGet self.recycle_bin s = none ∨ mapGet self.recycle_bin s = some []) :
    ∃ st, bsal_memory_pool_allocate (bsal_memory_pool_free self p) s =
        AllocateResult.ok p st ∧
      mapGet st.allocated_blocks p = some s := by
  have hfree : bsal_memory_pool_free self p =
      { self with
        recycle_bin := binEnqueue self.recycle_bin s p,
        allocated_blocks := mapDelete self.allocated_blocks p } := by
    unfold bsal_memory_pool_free
    rw [if_neg hp, if_neg (by simp [hdis]), if_neg hlarge,
      if_neg (by simp [htrack]), hsize]
  have hbin2 : mapGet (binEnqueue self.recycle_bin s p) s = some [p] := by
    rcases hbin with h | h
    · unfold binEnqueue
      rw [h]
      exact mapGet_append_of_none _ _ _ h
    · unfold binEnqueue
      rw [h]
      exact mapGet_mapInsert_self _ _ _
  have hpriv : bsal_memory_pool_allocate_private (bsal_memory_pool_free self p) s =
      (p, { bsal_memory_pool_free self p with
        recycle_bin := mapInsert (binEnqueue self.recycle_bin s p) s [],
        allocated_blocks :=
          mapInsert (mapDelete self.allocated_blocks p) p s }) := by
    rw [hfree]
    unfold bsal_memory_pool_allocate_private
    rw [if_neg (by omega), if_neg (by simp [hdis]), if_neg (by simp; omega)]
    simp only [htrack, if_true, hbin2]
  have hreq : poolRequestSize (bsal_memory_pool_free self p) s = some s := by
    rw [hfree]
    simp [poolRequestSize, hnorm]
  refine ⟨(bsal_memory_pool_allocate_private (bsal_memory_pool_free self p) s).2, ?_, ?_⟩
  · simp [bsal_memory_pool_allocate, hreq, hpriv, hp]
  · rw [hpriv]
    exact mapGet_mapInsert_self _ _ _

/-- Concrete instance of the C8 theorem: pointer 5 of size 16 tracked in a
pool with block size 64 and an empty recycle bin. -/
theorem claim_C8_witness :
    ∃ st, bsal_memory_pool_allocate
        (bsal_memory_pool_free ⟨[], [(5, 16)], [], none, [], [], 64, true, false, false, 30⟩ 5) 16 =
        AllocateResult.ok 5 st ∧
      mapGet st.allocated_blocks 5 = some 16 :=
  claim_C8_recycle_roundtrip ⟨[], [(5, 16)], [], none, [], [], 64, true, false, false, 30⟩ 5 16
    rfl rfl rfl (by decide) (by decide) (by decide) (by decide) (by decide)
    (Or.inl (by decide))

/-- The or of the right shifts of v by 0, 1, ..., m - 1; intermediate stages
of the shift-or cascade are of this shape. -/
def orShiftUpTo (v : Nat) : Nat → Nat
  | 0 => 0
  | m + 1 => orShiftUpTo v m ||| (v >>> m)

/-- Bit j of orShiftUpTo v m is the or of the bits j, j + 1, ..., j + m - 1
of v. -/
theorem testBit_orShiftUpTo (v m j : Nat) :
    (orShiftUpTo v m).testBit j = true ↔ ∃ i, i < m ∧ v.testBit (j + i) = true := by
  induction m with
  | zero =>
    simp [orShiftUpTo]
  | succ m ih =>
    simp only [orShiftUpTo, Nat.testBit_lor, Bool.or_eq_true, ih,
      Nat.testBit_shiftRight]
    constructor
    · rintro (⟨i, hi, h⟩ | h)
      · exact ⟨i, by omega, h⟩
      · exact ⟨m, by omega, by rwa [Nat.add_comm j m]⟩
    · rintro ⟨i, hi, h⟩
      by_cases him : i < m
      · exact Or.inl ⟨i, him, h⟩
      · refine Or.inr ?_
        have hj : m + j = j + i := by omega
        rw [hj]
        exact h

/-- One doubling step of the shift-or cascade. -/
theorem orShiftUpTo_double (v m : Nat) :
    orShiftUpTo v m ||| (orShiftUpTo v m >>> m) = orShiftUpTo v (m + m) := by
  apply Nat.eq_of_testBit_eq
  intro j
  rw [Bool.eq_iff_iff]
  simp only [Nat.testBit_lor, Bool.or_eq_true, Nat.testBit_shiftRight,
    testBit_orShiftUpTo]
  constructor
  · rintro (⟨i, hi, h⟩ | ⟨i, hi, h⟩)
    · exact ⟨i, by omega, h⟩
    · refine ⟨m + i, by omega, ?_⟩
      rwa [show j + (m + i) = m + j + i from by omega]
  · rintro ⟨i, hi, h⟩
    by_cases him : i < m
    · exact Or.inl ⟨i, him, h⟩
    · refine Or.inr ⟨i - m, by omega, ?_⟩
      rwa [show m + j + (i - m) = j + i from by omega]

/-- The most significant bit of a positive number is set. -/
theorem testBit_size_pred (v : Nat) (hv : 0 < v) :
    v.testBit (v.size - 1) = true := by
  have hs : 0 < v.size := Nat.size_pos.mpr hv
  have hlow : 2 ^ (v.size - 1) ≤ v := by
    by_contra h
    push_neg at h
    have := Nat.size_le.mpr h
    omega
  have hhigh : v < 2 ^ v.size := Nat.lt_size_self v
  have hpow : 2 ^ v.size = 2 ^ (v.size - 1) * 2 := by
    rw [← Nat.pow_succ]
    congr 1
    omega
  have hdiv : v / 2 ^ (v.size - 1) = 1 := by
    have hle : 1 ≤ v / 2 ^ (v.size - 1) :=
      (Nat.le_div_iff_mul_le (Nat.pos_pow_of_pos _ (by norm_num))).mpr (by omega)
    have hlt : v / 2 ^ (v.size - 1) < 2 :=
      (Nat.div_lt_iff_lt_mul (Nat.pos_pow_of_pos _ (by norm_num))).mpr (by omega)
    omega
  rw [Nat.testBit_to_div_mod, hdiv]
  decide

/-- Thirty-two shift-or stages saturate every bit below the most significant
one, for values of at most 32 bits. -/
theorem orShiftUpTo_saturates (v : Nat) (h : v.size ≤ 32) :
    orShiftUpTo v 32 = 2 ^ v.size - 1 := by
  apply Nat.eq_of_testBit_eq
  intro j
  rw [Bool.eq_iff_iff, testBit_orShiftUpTo, Nat.testBit_two_pow_sub_one]
  simp only [decide_eq_true_eq]
  constructor
  · rintro ⟨i, hi, hbit⟩
    by_contra hj
    push_neg at hj
    have hlt : v < 2 ^ (j + i) := by
      calc v < 2 ^ v.size := Nat.lt_size_self v
        _ ≤ 2 ^ (j + i) := Nat.pow_le_pow_right (by norm_num) (by omega)
    rw [Nat.testBit_lt_two_pow hlt] at hbit
    exact Bool.false_ne_true hbit
  · intro hj
    have hv : 0 < v := by
      rcases Nat.eq_zero_or_pos v with h0 | h0
      · subst h0
        simp [Nat.size_zero] at hj
      · exact h0
    refine ⟨v.size - 1 - j, by omega, ?_⟩
    rw [show j + (v.size - 1 - j) = v.size - 1 from by omega]
    exact testBit_size_pred v hv

/-- The five-stage cascade equals the or of the first 32 shifts. -/
theorem cascade_eq_orShiftUpTo (v : Nat) :
    bsal_memory_pool_normalize_cascade v = orShiftUpTo v 32 := by
  have e1 : orShiftUpTo v 1 = v := by simp [orShiftUpTo]
  have d1 := orShiftUpTo_double v 1
  rw [e1] at d1
  have d2 := orShiftUpTo_double v 2
  have d4 := orShiftUpTo_double v 4
  have d8 := orShiftUpTo_double v 8
  have d16 := orShiftUpTo_double v 16
  norm_num at d1 d2 d4 d8 d16
  show (let v1 := v ||| (v >>> 1)
    let v2 := v1 ||| (v1 >>> 2)
    let v3 := v2 ||| (v2 >>> 4)
    let v4 := v3 ||| (v3 >>> 8)
    v4 ||| (v4 >>> 16)) = orShiftUpTo v 32
  simp only [d1, d2, d4, d8, d16]

/-- On requests between 1 and 2 to the 31, the bit-twiddle branch computes
2 to the bit length of size - 1. -/
theorem bit_twiddle_eq (size : Nat) (h1 : 1 ≤ size) (h2 : size ≤ 2147483648) :
    bsal_memory_pool_normalize_bit_twiddle size = 2 ^ Nat.size (size - 1) := by
  have hsz : Nat.size (size - 1) ≤ 31 := Nat.size_le.mpr (by norm_num; omega)
  have hv : (size % 4294967296 + 4294967296 - 1) % 4294967296 = size - 1 := by
    rw [Nat.mod_eq_of_lt (show size < 4294967296 by omega),
      show size + 4294967296 - 1 = (size - 1) + 4294967296 from by omega,
      Nat.add_mod_right]
    exact Nat.mod_eq_of_lt (by omega)
  have hpow : 2 ^ Nat.size (size - 1) ≤ 2147483648 := by
    calc 2 ^ Nat.size (size - 1) ≤ 2 ^ 31 := Nat.pow_le_pow_right (by norm_num) hsz
      _ = 2147483648 := by norm_num
  calc bsal_memory_pool_normalize_bit_twiddle size
      = (bsal_memory_pool_normalize_cascade ((size % 4294967296 + 4294967296 - 1) % 4294967296) + 1) % 4294967296 := rfl
    _ = (bsal_memory_pool_normalize_cascade (size - 1) + 1) % 4294967296 := by rw [hv]
    _ = (2 ^ Nat.size (size - 1) - 1 + 1) % 4294967296 := by
        rw [cascade_eq_orShiftUpTo, orShiftUpTo_saturates _ (by omega)]
    _ = 2 ^ Nat.size (size - 1) % 4294967296 := by
        rw [Nat.sub_add_cancel Nat.one_le_two_pow]
    _ = 2 ^ Nat.size (size - 1) := Nat.mod_eq_of_lt (by omega)

/-- The power 2 to the bit length of size - 1 is the smallest power of two
that is at least size. -/
theorem isNextPowerOfTwo_size (size : Nat) (h1 : 1 ≤ size) :
    IsNextPowerOfTwo size (2 ^ Nat.size (size - 1)) := by
  refine ⟨⟨_, rfl⟩, ?_, ?_⟩
  · have := Nat.lt_size_self (size - 1)
    omega
  · rintro m k rfl hm
    have : size - 1 < 2 ^ k := by omega
    exact Nat.pow_le_pow_right (by norm_num) (Nat.size_le.mpr this)

/-- The doubling loop, started at 2 to the j after passing every smaller
power of two, stops at the smallest power of two that reaches size.  Sizes
up to 2 to the 63 never make the 64-bit return value wrap. -/
theorem iterativeDoubling_spec (fuel : Nat) :
    ∀ j size, size ≤ 9223372036854775808 → j ≤ 63 →
    (∀ i, i < j → 2 ^ i < size) → 63 - j < fuel →
    ∃ r, iterativeDoubling fuel size (2 ^ j) = some r ∧ IsNextPowerOfTwo size r := by
  induction fuel with
  | zero =>
    intro j size _ _ _ h
    omega
  | succ f ih =>
    intro j size hsize hj hlow hfuel
    by_cases hstep : 2 ^ j < size
    · have hj63 : j < 63 := by
        by_contra hcon
        push_neg at hcon
        have hj2 : j = 63 := by omega
        subst hj2
        have : (9223372036854775808 : Nat) < size := by
          calc (9223372036854775808 : Nat) = 2 ^ 63 := by norm_num
            _ < size := hstep
        omega
      have hmod : (2 ^ j * 2) % 18446744073709551616 = 2 ^ (j + 1) := by
        rw [← Nat.pow_succ]
        apply Nat.mod_eq_of_lt
        calc 2 ^ (j + 1) ≤ 2 ^ 63 := Nat.pow_le_pow_right (by norm_num) (by omega)
          _ < 18446744073709551616 := by norm_num
      have hred : iterativeDoubling (f + 1) size (2 ^ j) =
          iterativeDoubling f size (2 ^ (j + 1)) := by
        simp only [iterativeDoubling]
        rw [if_pos hstep, hmod]
      rw [hred]
      apply ih (j + 1) size hsize (by omega) ?_ (by omega)
      intro i hi
      by_cases hij : i < j
      · exact hlow i hij
      · have hij2 : i = j := by omega
        subst hij2
        exact hstep
    · push_neg at hstep
      refine ⟨2 ^ j, ?_, ⟨j, rfl⟩, hstep, ?_⟩
      · unfold iterativeDoubling
        rw [if_neg (by omega)]
      · rintro m k rfl hm
        by_cases hkj : k < j
        · exact absurd hm (by have := hlow k hkj; omega)
        · exact Nat.pow_le_pow_right (by norm_num) (by omega)

/-- C5 counterexample: the bit-twiddle branch is applied to every size that
fits in 32 bits, but on size 2147483649 (2 to the 31 plus 1) the 32-bit
increment wraps around and the result is 0, not the smallest power of two
greater than or equal to the size (which would be 2 to the 32). -/
theorem claim_C5_counterexample :
    bsal_memory_pool_normalize_segment_length 2147483649 =
      some (bsal_memory_pool_normalize_bit_twiddle 2147483649) ∧
    bsal_memory_pool_normalize_bit_twiddle 2147483649 = 0 ∧
    ¬ IsNextPowerOfTwo 2147483649 (bsal_memory_pool_normalize_bit_twiddle 2147483649) := by
  have h0 : bsal_memory_pool_normalize_bit_twiddle 2147483649 = 0 := by decide
  refine ⟨by decide, h0, ?_⟩
  rw [h0]
  rintro ⟨_, hle, _⟩
  omega

/-- C5 as amended: the bit-twiddle branch returns the smallest power of two
greater than or equal to size for sizes from 1 up to 2 to the 31 (not for
every 32-bit size), and the iterative-doubling branch returns that same
smallest power of two for sizes above the 32-bit range up to 2 to the 63. -/
theorem claim_C5_normalize_next_power_of_two (size : Nat) :
    (1 ≤ size → size ≤ 2147483648 →
      IsNextPowerOfTwo size (bsal_memory_pool_normalize_bit_twiddle size) ∧
      bsal_memory_pool_normalize_segment_length size =
        some (bsal_memory_pool_normalize_bit_twiddle size)) ∧
    (4294967295 < size → size ≤ 9223372036854775808 →
      ∃ r, bsal_memory_pool_normalize_segment_length size = some r ∧
        IsNextPowerOfTwo size r) := by
  constructor
  · intro h1 h2
    constructor
    · rw [bit_twiddle_eq size h1 h2]
      exact isNextPowerOfTwo_size size h1
    · unfold bsal_memory_pool_normalize_segment_length
      rw [if_neg (by omega)]
  · intro h1 h2
    unfold bsal_memory_pool_normalize_segment_length
    rw [if_pos h1]
    have h := iterativeDoubling_spec 65 0 size h2 (by omega)
      (by intro i hi; omega) (by omega)
    rw [pow_zero] at h
    exact h

/-- Concrete instances of the amended C5 theorem: size 4097 rounds up to
8192, and size 4294967297 rounds up to 8589934592 through the doubling
loop. -/
theorem claim_C5_witness :
    (IsNextPowerOfTwo 4097 (bsal_memory_pool_normalize_bit_twiddle 4097) ∧
      bsal_memory_pool_normalize_segment_length 4097 =
        some (bsal_memory_pool_normalize_bit_twiddle 4097)) ∧
    (∃ r, bsal_memory_pool_normalize_segment_length 4294967297 = some r ∧
      IsNextPowerOfTwo 4294967297 r) :=
  ⟨(claim_C5_normalize_next_power_of_two 4097).1 (by decide) (by decide),
   (claim_C5_normalize_next_power_of_two 4294967297).2 (by decide) (by decide)⟩

/-- All pointers currently held by the recycle bin, across all size queues. -/
def binPtrs : List (Nat × List Nat) → List Nat
  | [] => []
  | e :: t => e.2 ++ binPtrs t

/-- The blocks from which the pool can still bump-allocate: the current block
followed by the ready blocks. -/
def allBlocks (self : bsal_memory_pool) : List bsal_memory_block :=
  self.current_block.toList ++ self.ready_blocks

/-- The p lies in the part of block b that bump allocation has not handed
out yet. -/
def blockFuture (b : bsal_memory_block) (p : Nat) : Prop :=
  b.base + b.offset ≤ p ∧ p < b.base + b.capacity

/-- The address p may still be handed out for the first time: it lies in the
unconsumed part of a usable block, or past the system allocator frontier. -/
def FutureFresh (self : bsal_memory_pool) (p : Nat) : Prop :=
  (∃ b ∈ allBlocks self, blockFuture b p) ∨ self.next_address ≤ p

/-- The address ranges of two blocks do not overlap. -/
def blockDisjoint (b1 b2 : bsal_memory_block) : Prop :=
  b1.base + b1.capacity ≤ b2.base ∨ b2.base + b2.capacity ≤ b1.base

/-- Well-formedness of a tracking memory pool, as maintained by allocate and
free: the allocated-blocks map and the recycle bin are duplicate-free and
disjoint, their pointers are not handed out again by bump allocation or the
system, and the usable blocks are disjoint, sized to block_size, and (for
ready blocks) reset. -/
structure MemoryPoolInv (self : bsal_memory_pool) : Prop where
  map_nodup : (self.allocated_blocks.map Prod.fst).Nodup
  bin_keys_nodup : (self.recycle_bin.map Prod.fst).Nodup
  bin_nodup : (binPtrs self.recycle_bin).Nodup
  disj : ∀ p, p ∈ self.allocated_blocks.map Prod.fst → p ∉ binPtrs self.recycle_bin
  fresh_map : ∀ p, p ∈ self.allocated_blocks.map Prod.fst → ¬ FutureFresh self p
  fresh_bin : ∀ p, p ∈ binPtrs self.recycle_bin → ¬ FutureFresh self p
  blocks_ok : ∀ b ∈ allBlocks self, b.capacity = self.block_size ∧
    b.offset ≤ b.capacity ∧ 1 ≤ b.base ∧ b.base + b.capacity ≤ self.next_address
  ready_reset : ∀ b ∈ self.ready_blocks, b.offset = 0
  blocks_disjoint : (allBlocks self).Pairwise blockDisjoint
  next_pos : 1 ≤ self.next_address

/-- A missing key is exactly a key outside the key list. -/
theorem mapGet_eq_none_iff {A : Type} (m : List (Nat × A)) (k : Nat) :
    mapGet m k = none ↔ k ∉ m.map Prod.fst := by
  induction m with
  | nil => simp [mapGet]
  | cons e t ih =>
    obtain ⟨ek, ev⟩ := e
    by_cases hk : ek = k
    · simp [mapGet, hk]
    · simp [mapGet, hk, ih, Ne.symm hk]

/-- A found key is in the key list. -/
theorem mem_keys_of_mapGet_some {A : Type} {m : List (Nat × A)} {k : Nat}
    {v : A} (h : mapGet m k = some v) : k ∈ m.map Prod.fst := by
  by_contra hmem
  rw [← mapGet_eq_none_iff] at hmem
  rw [h] at hmem
  cases hmem

/-- Inserting an absent key appends it to the key list. -/
theorem mapInsert_keys_of_none {A : Type} {m : List (Nat × A)} {k : Nat}
    (v : A) (h : mapGet m k = none) :
    (mapInsert m k v).map Prod.fst = m.map Prod.fst ++ [k] := by
  induction m with
  | nil => simp [mapInsert]
  | cons e t ih =>
    obtain ⟨ek, ev⟩ := e
    by_cases hk : ek = k
    · simp [mapGet, hk] at h
    · simp [mapGet, hk] at h
      simp [mapInsert, hk, ih h]

/-- Updating a present key leaves the key list unchanged. -/
theorem mapInsert_keys_of_some {A : Type} {m : List (Nat × A)} {k : Nat}
    {w : A} (v : A) (h : mapGet m k = some w) :
    (mapInsert m k v).map Prod.fst = m.map Prod.fst := by
  induction m with
  | nil => simp [mapGet] at h
  | cons e t ih =>
    obtain ⟨ek, ev⟩ := e
    by_cases hk : ek = k
    · simp [mapInsert, hk]
    · simp [mapGet, hk] at h
      simp [mapInsert, hk, ih h]

/-- Deleting a key yields a sublist. -/
theorem mapDelete_sublist {A : Type} (m : List (Nat × A)) (k : Nat) :
    List.Sublist (mapDelete m k) m := by
  induction m with
  | nil => simp [mapDelete]
  | cons e t ih =>
    obtain ⟨ek, ev⟩ := e
    by_cases hk : ek = k
    · simp only [mapDelete, if_pos hk]
      exact (List.sublist_cons_self _ _)
    · simp only [mapDelete, if_neg hk]
      exact ih.cons₂ _

/-- After deleting a key from a duplicate-free map, the key is gone. -/
theorem mapDelete_not_mem {A : Type} {m : List (Nat × A)} {k : Nat}
    (h : (m.map Prod.fst).Nodup) : k ∉ (mapDelete m k).map Prod.fst := by
  induction m with
  | nil => simp [mapDelete]
  | cons e t ih =>
    obtain ⟨ek, ev⟩ := e
    simp only [List.map_cons, List.nodup_cons] at h
    by_cases hk : ek = k
    · simp only [mapDelete, if_pos hk]
      rw [← hk]
      exact h.1
    · simp only [mapDelete, if_neg hk, List.map_cons, List.mem_cons]
      rintro (hc | hc)
      · exact hk hc.symm
      · exact ih h.2 hc

/-- binPtrs distributes over append. -/
theorem binPtrs_append (a b : List (Nat × List Nat)) :
    binPtrs (a ++ b) = binPtrs a ++ binPtrs b := by
  induction a with
  | nil => simp [binPtrs]
  | cons e t ih => simp [binPtrs, ih]

/-- Replacing the queue of a present size rewrites a fixed slice of the bin
pointer list. -/
theorem binPtrs_mapInsert_decomp (bin : List (Nat × List Nat)) (s : Nat)
    (q : List Nat) (h : mapGet bin s = some q) :
    ∃ A B, binPtrs bin = A ++ (q ++ B) ∧
      ∀ q2, binPtrs (mapInsert bin s q2) = A ++ (q2 ++ B) := by
  induction bin with
  | nil => simp [mapGet] at h
  | cons e t ih =>
    obtain ⟨k, v⟩ := e
    by_cases hk : k = s
    · simp only [mapGet, if_pos hk] at h
      cases h
      exact ⟨[], binPtrs t, by simp [binPtrs],
        fun q2 => by simp [mapInsert, hk, binPtrs]⟩
    · simp only [mapGet, if_neg hk] at h
      obtain ⟨A, B, h1, h2⟩ := ih h
      refine ⟨v ++ A, B, by simp [binPtrs, h1], fun q2 => ?_⟩
      simp [mapInsert, hk, binPtrs, h2 q2]

/-- Pointers stored under a present size are in the bin pointer list. -/
theorem mem_binPtrs_of_mapGet {bin : List (Nat × List Nat)} {s : Nat}
    {q : List Nat} (h : mapGet bin s = some q) {x : Nat} (hx : x ∈ q) :
    x ∈ binPtrs bin := by
  obtain ⟨A, B, h1, _⟩ := binPtrs_mapInsert_decomp bin s q h
  rw [h1]
  simp [hx]

/-- Enqueuing into the recycle bin adds exactly the one pointer, up to
permutation of the pointer list. -/
theorem binPtrs_binEnqueue_perm (bin : List (Nat × List Nat)) (s p : Nat) :
    List.Perm (binPtrs (binEnqueue bin s p)) (binPtrs bin ++ [p]) := by
  unfold binEnqueue
  cases h : mapGet bin s with
  | none =>
    rw [binPtrs_append]
    simp [binPtrs]
  | some q =>
    obtain ⟨A, B, h1, h2⟩ := binPtrs_mapInsert_decomp bin s q h
    rw [h2, h1]
    calc List.Perm (A ++ (q ++ [p] ++ B)) (A ++ (q ++ (B ++ [p]))) := by
          refine List.Perm.append_left A ?_
          rw [List.append_assoc]
          exact List.Perm.append_left q (List.perm_append_comm)
      _ = A ++ (q ++ B) ++ [p] := by simp [List.append_assoc]

/-- Enqueuing keeps the bin size keys duplicate-free. -/
theorem binEnqueue_keys_nodup {bin : List (Nat × List Nat)} (s p : Nat)
    (h : (bin.map Prod.fst).Nodup) :
    ((binEnqueue bin s p).map Prod.fst).Nodup := by
  unfold binEnqueue
  cases hg : mapGet bin s with
  | none =>
    rw [List.map_append]
    simp only [List.map_cons, List.map_nil]
    rw [List.nodup_append]
    refine ⟨h, by simp, ?_⟩
    simp only [List.disjoint_singleton]
    exact (mapGet_eq_none_iff bin s).mp hg
  | some q =>
    rw [mapInsert_keys_of_some _ hg]
    exact h

/-- The invariant only looks at the bin, the map, the usable blocks,
block_size and the allocator frontier; it survives any change that keeps
those components and can only advance the frontier. -/
theorem MemoryPoolInv.transport {s1 s2 : bsal_memory_pool}
    (h : MemoryPoolInv s1)
    (hbin : s2.recycle_bin = s1.recycle_bin)
    (hmap : s2.allocated_blocks = s1.allocated_blocks)
    (hcur : s2.current_block = s1.current_block)
    (hready : s2.ready_blocks = s1.ready_blocks)
    (hbs : s2.block_size = s1.block_size)
    (hnext : s1.next_address ≤ s2.next_address) :
    MemoryPoolInv s2 := by
  have hblocks : allBlocks s2 = allBlocks s1 := by
    simp [allBlocks, hcur, hready]
  have hfut : ∀ p, FutureFresh s2 p → FutureFresh s1 p := by
    intro p hf
    rcases hf with ⟨b, hb, hbf⟩ | hf
    · exact Or.inl ⟨b, by rwa [hblocks] at hb, hbf⟩
    · exact Or.inr (by omega)
  obtain ⟨hm, hbk, hbn, hd, hfm, hfb, hbo, hrr, hbd, hnp⟩ := h
  refine ⟨?_, ?_, ?_, ?_, ?_, ?_, ?_, ?_, ?_, ?_⟩
  · rw [hmap]; exact hm
  · rw [hbin]; exact hbk
  · rw [hbin]; exact hbn
  · rw [hmap, hbin]; exact hd
  · rw [hmap]
    intro p hp hf
    exact hfm p hp (hfut p hf)
  · rw [hbin]
    intro p hp hf
    exact hfb p hp (hfut p hf)
  · rw [hblocks, hbs]
    intro b hb
    obtain ⟨h1, h2, h3, h4⟩ := hbo b hb
    exact ⟨h1, h2, h3, by omega⟩
  · rw [hready]; exact hrr
  · rw [hblocks]; exact hbd
  · omega

/-- The current block belongs to the usable blocks. -/
theorem mem_allBlocks_cur {self : bsal_memory_pool} {cur : bsal_memory_block}
    (hc : self.current_block = some cur) : cur ∈ allBlocks self := by
  simp [allBlocks, hc]

/-- Every ready block belongs to the usable blocks. -/
theorem mem_allBlocks_ready {self : bsal_memory_pool} {b : bsal_memory_block}
    (hb : b ∈ self.ready_blocks) : b ∈ allBlocks self := by
  simp [allBlocks, hb]

/-- Invariant transport when the usable blocks are re-arranged without
changing the combined list, the bin, the map, block_size or the frontier. -/
theorem MemoryPoolInv.transport_blocks {s1 s2 : bsal_memory_pool}
    (h : MemoryPoolInv s1)
    (hbin : s2.recycle_bin = s1.recycle_bin)
    (hmap : s2.allocated_blocks = s1.allocated_blocks)
    (hblocks : allBlocks s2 = allBlocks s1)
    (hready : ∀ b ∈ s2.ready_blocks, b ∈ s1.ready_blocks)
    (hbs : s2.block_size = s1.block_size)
    (hnext : s2.next_address = s1.next_address) :
    MemoryPoolInv s2 := by
  obtain ⟨hm, hbk, hbn, hd, hfm, hfb, hbo, hrr, hbd, hnp⟩ := h
  have hfut : ∀ p, FutureFresh s2 p → FutureFresh s1 p := by
    intro p hf
    rcases hf with ⟨b, hb, hbf⟩ | hf
    · exact Or.inl ⟨b, by rwa [hblocks] at hb, hbf⟩
    · exact Or.inr (by omega)
  refine ⟨?_, ?_, ?_, ?_, ?_, ?_, ?_, ?_, ?_, ?_⟩
  · rw [hmap]; exact hm
  · rw [hbin]; exact hbk
  · rw [hbin]; exact hbn
  · rw [hmap, hbin]; exact hd
  · rw [hmap]
    intro p hp hf
    exact hfm p hp (hfut p hf)
  · rw [hbin]
    intro p hp hf
    exact hfb p hp (hfut p hf)
  · rw [hblocks, hbs, hnext]
    exact hbo
  · intro b hb
    exact hrr b (hready b hb)
  · rw [hblocks]; exact hbd
  · omega

/-- poolEnsureBlock preserves the invariant, always establishes a current
block, and does not touch the bin, the map, block_size or the tracking
flag. -/
theorem poolEnsureBlock_spec (self : bsal_memory_pool) (h : MemoryPoolInv self) :
    MemoryPoolInv (poolEnsureBlock self) ∧
    (poolEnsureBlock self).current_block.isSome = true ∧
    (poolEnsureBlock self).recycle_bin = self.recycle_bin ∧
    (poolEnsureBlock self).allocated_blocks = self.allocated_blocks ∧
    (poolEnsureBlock self).block_size = self.block_size ∧
    (poolEnsureBlock self).flag_tracking = self.flag_tracking := by
  cases hc : self.current_block with
  | some c =>
    have he : poolEnsureBlock self = self := by
      unfold poolEnsureBlock
      rw [hc]
    rw [he, hc]
    exact ⟨h, rfl, rfl, rfl, rfl, rfl⟩
  | none =>
    have he : poolEnsureBlock self = bsal_memory_pool_add_block self := by
      unfold poolEnsureBlock
      rw [hc]
    rw [he]
    cases hr : self.ready_blocks with
    | cons b rest =>
      have ha : bsal_memory_pool_add_block self =
          { self with current_block := some b, ready_blocks := rest } := by
        unfold bsal_memory_pool_add_block
        rw [hr]
      rw [ha]
      refine ⟨?_, rfl, rfl, rfl, rfl, rfl⟩
      refine MemoryPoolInv.transport_blocks h rfl rfl ?_ ?_ rfl rfl
      · simp [allBlocks, hc, hr]
      · intro x hx
        rw [hr]
        simp only at hx
        exact List.mem_cons_of_mem b hx
    | nil =>
      have ha : bsal_memory_pool_add_block self =
          { self with
            current_block := some ⟨self.next_address, self.block_size, 0⟩,
            next_address := self.next_address + self.block_size } := by
        unfold bsal_memory_pool_add_block
        rw [hr]
      rw [ha]
      obtain ⟨hm, hbk, hbn, hd, hfm, hfb, hbo, hrr, hbd, hnp⟩ := h
      have hempty : allBlocks self = [] := by
        simp [allBlocks, hc, hr]
      have hfut : ∀ p, ¬ FutureFresh self p → ¬ self.next_address ≤ p := by
        intro p hf hle
        exact hf (Or.inr hle)
      refine ⟨?_, rfl, rfl, rfl, rfl, rfl⟩
      refine ⟨hm, hbk, hbn, hd, ?_, ?_, ?_, ?_, ?_, ?_⟩
      · intro p hp hf
        have hnle := hfut p (hfm p hp)
        rcases hf with ⟨bb, hbb, hbf⟩ | hf
        · simp only [allBlocks, Option.toList, List.mem_append,
            List.mem_singleton, hr] at hbb
          rcases hbb with hbb | hbb
          · obtain ⟨hb1, hb2⟩ := hbf
            rw [hbb] at hb1 hb2
            simp at hb1
            omega
          · simp at hbb
        · simp at hf
          omega
      · intro p hp hf
        have hnle := hfut p (hfb p hp)
        rcases hf with ⟨bb, hbb, hbf⟩ | hf
        · simp only [allBlocks, Option.toList, List.mem_append,
            List.mem_singleton, hr] at hbb
          rcases hbb with hbb | hbb
          · obtain ⟨hb1, hb2⟩ := hbf
            rw [hbb] at hb1 hb2
            simp at hb1
            omega
          · simp at hbb
        · simp at hf
          omega
      · intro bb hbb
        simp only [allBlocks, Option.toList, List.mem_append, hr] at hbb
        rcases hbb with hbb | hbb
        · simp at hbb
          rw [hbb]
          refine ⟨rfl, by simp, by simpa using hnp, by simp⟩
        · simp at hbb
      · intro bb hbb
        simp only [hr] at hbb
        simp at hbb
      · simp only [allBlocks, Option.toList, hr]
        simp [List.pairwise_cons]
      · simp only []
        omega

/-- The bump path preserves the invariant, touches neither the bin nor the
map nor the tracking flag, and returns a non-null pointer that was
future-fresh before the call and no longer is after it. -/
theorem poolBumpAllocate_spec (self : bsal_memory_pool) (size : Nat)
    (h : MemoryPoolInv self) (hcur : self.current_block.isSome = true)
    (hpos : 0 < size) (hsmall : size < self.block_size) :
    MemoryPoolInv (poolBumpAllocate self size).2 ∧
    (poolBumpAllocate self size).2.recycle_bin = self.recycle_bin ∧
    (poolBumpAllocate self size).2.allocated_blocks = self.allocated_blocks ∧
    (poolBumpAllocate self size).2.flag_tracking = self.flag_tracking ∧
    (poolBumpAllocate self size).1 ≠ 0 ∧
    FutureFresh self (poolBumpAllocate self size).1 ∧
    ¬ FutureFresh (poolBumpAllocate self size).2 (poolBumpAllocate self size).1 := by
  obtain ⟨cur, hc⟩ := Option.isSome_iff_exists.mp hcur
  obtain ⟨hm, hbk, hbn, hd, hfm, hfb, hbo, hrr, hbd, hnp⟩ := h
  have hall : allBlocks self = cur :: self.ready_blocks := by simp [allBlocks, hc]
  obtain ⟨hccap, hcoff, hcbase, hcbound⟩ :=
    hbo cur (by rw [hall]; exact List.mem_cons_self _ _)
  have hbd2 := hbd
  rw [hall] at hbd2
  have hpw := List.pairwise_cons.mp hbd2
  by_cases hfit : cur.offset + size ≤ cur.capacity
  · have hba : bsal_memory_block_allocate cur size =
        (cur.base + cur.offset, { cur with offset := cur.offset + size }) := by
      unfold bsal_memory_block_allocate
      rw [if_pos hfit]
    have hres : poolBumpAllocate self size =
        (cur.base + cur.offset,
          { self with current_block := some { cur with offset := cur.offset + size } }) := by
      unfold poolBumpAllocate
      rw [hc]
      simp only [hba]
      rw [if_neg (by omega)]
    rw [hres]
    have hfut : ∀ q,
        FutureFresh { self with
          current_block := some { cur with offset := cur.offset + size } } q →
        FutureFresh self q := by
      intro q hf
      rcases hf with ⟨b, hb, hbf⟩ | hle
      · simp only [allBlocks, Option.toList, List.mem_append,
          List.mem_singleton] at hb
        rcases hb with hb | hb
        · subst hb
          obtain ⟨h1, h2⟩ := hbf
          simp only at h1 h2
          refine Or.inl ⟨cur, by rw [hall]; exact List.mem_cons_self _ _, ?_, ?_⟩
          · omega
          · omega
        · exact Or.inl ⟨b, mem_allBlocks_ready hb, hbf⟩
      · exact Or.inr (by simpa using hle)
    refine ⟨?_, rfl, rfl, rfl, by omega, ?_, ?_⟩
    · refine ⟨hm, hbk, hbn, hd, ?_, ?_, ?_, hrr, ?_, by simpa using hnp⟩
      · intro q hq hf
        exact hfm q hq (hfut q hf)
      · intro q hq hf
        exact hfb q hq (hfut q hf)
      · intro b hb
        simp only [allBlocks, Option.toList, List.mem_append,
          List.mem_singleton] at hb
        rcases hb with hb | hb
        · subst hb
          refine ⟨by simpa using hccap, by simp; omega, by simpa using hcbase,
            by simp; omega⟩
        · obtain ⟨b1, b2, b3, b4⟩ := hbo b (mem_allBlocks_ready hb)
          exact ⟨b1, b2, b3, b4⟩
      · have hshape : allBlocks { self with
            current_block := some { cur with offset := cur.offset + size } } =
            { cur with offset := cur.offset + size } :: self.ready_blocks := by
          simp [allBlocks]
        rw [hshape]
        refine List.pairwise_cons.mpr ⟨?_, hpw.2⟩
        intro b hb
        have := hpw.1 b hb
        rcases this with h1 | h1
        · exact Or.inl (by simpa using h1)
        · exact Or.inr (by simpa using h1)
    · refine Or.inl ⟨cur, by rw [hall]; exact List.mem_cons_self _ _, ?_, ?_⟩
      · omega
      · omega
    · intro hf
      rcases hf with ⟨b, hb, hbf⟩ | hle
      · simp only [allBlocks, Option.toList, List.mem_append,
          List.mem_singleton] at hb
        rcases hb with hb | hb
        · subst hb
          obtain ⟨h1, h2⟩ := hbf
          simp only at h1 h2
          omega
        · obtain ⟨h1, h2⟩ := hbf
          obtain ⟨b1, b2, b3, b4⟩ := hbo b (mem_allBlocks_ready hb)
          rcases hpw.1 b hb with hdj | hdj <;> omega
      · simp only at hle
        omega
  · have hba : bsal_memory_block_allocate cur size = (0, cur) := by
      unfold bsal_memory_block_allocate
      rw [if_neg hfit]
    cases hr : self.ready_blocks with
    | cons b rest =>
      have hbmem : b ∈ self.ready_blocks := by
        rw [hr]; exact List.mem_cons_self _ _
      have hb0 : b.offset = 0 := hrr b hbmem
      obtain ⟨hbcap, hboff, hbbase, hbbound⟩ := hbo b (mem_allBlocks_ready hbmem)
      have hfit2 : b.offset + size ≤ b.capacity := by omega
      have hba2 : bsal_memory_block_allocate b size =
          (b.base + b.offset, { b with offset := b.offset + size }) := by
        unfold bsal_memory_block_allocate
        rw [if_pos hfit2]
      have hrest : ∀ x ∈ rest, x ∈ self.ready_blocks := by
        intro x hx
        rw [hr]
        exact List.mem_cons_of_mem _ hx
      have hpwb : List.Pairwise blockDisjoint (b :: rest) := by
        have := hpw.2
        rwa [hr] at this
      have hpwb2 := List.pairwise_cons.mp hpwb
      have hres : poolBumpAllocate self size =
          (b.base + b.offset,
            { self with
              dried_blocks := self.dried_blocks ++ [cur],
              current_block := some { b with offset := b.offset + size },
              ready_blocks := rest }) := by
        unfold poolBumpAllocate
        rw [hc]
        simp only [hba]
        rw [if_pos trivial]
        have hadd : bsal_memory_pool_add_block
            { self with
              dried_blocks := self.dried_blocks ++ [cur],
              current_block := none } =
            { self with
              dried_blocks := self.dried_blocks ++ [cur],
              current_block := some b, ready_blocks := rest } := by
          unfold bsal_memory_pool_add_block
          simp only [hr]
        rw [hadd]
        simp only [hba2]
      rw [hres]
      have hfut : ∀ q,
          FutureFresh { self with
            dried_blocks := self.dried_blocks ++ [cur],
            current_block := some { b with offset := b.offset + size },
            ready_blocks := rest } q →
          FutureFresh self q := by
        intro q hf
        rcases hf with ⟨x, hx, hxf⟩ | hle
        · simp only [allBlocks, Option.toList, List.mem_append,
            List.mem_singleton] at hx
          rcases hx with hx | hx
          · subst hx
            obtain ⟨h1, h2⟩ := hxf
            simp only at h1 h2
            refine Or.inl ⟨b, mem_allBlocks_ready hbmem, by omega, by omega⟩
          · exact Or.inl ⟨x, mem_allBlocks_ready (hrest x hx), hxf⟩
        · exact Or.inr (by simpa using hle)
      refine ⟨?_, rfl, rfl, rfl, by omega, ?_, ?_⟩
      · refine ⟨hm, hbk, hbn, hd, ?_, ?_, ?_, ?_, ?_, by simpa using hnp⟩
        · intro q hq hf
          exact hfm q hq (hfut q hf)
        · intro q hq hf
          exact hfb q hq (hfut q hf)
        · intro x hx
          simp only [allBlocks, Option.toList, List.mem_append,
            List.mem_singleton] at hx
          rcases hx with hx | hx
          · subst hx
            refine ⟨by simpa using hbcap, by simp; omega, by simpa using hbbase,
              by simp; omega⟩
          · obtain ⟨b1, b2, b3, b4⟩ := hbo x (mem_allBlocks_ready (hrest x hx))
            exact ⟨b1, b2, b3, b4⟩
        · intro x hx
          simp only at hx
          exact hrr x (hrest x hx)
        · have hshape : allBlocks { self with
              dried_blocks := self.dried_blocks ++ [cur],
              current_block := some { b with offset := b.offset + size },
              ready_blocks := rest } =
              { b with offset := b.offset + size } :: rest := by
            simp [allBlocks]
          rw [hshape]
          refine List.pairwise_cons.mpr ⟨?_, hpwb2.2⟩
          intro x hx
          rcases hpwb2.1 x hx with h1 | h1
          · exact Or.inl (by simpa using h1)
          · exact Or.inr (by simpa using h1)
      · exact Or.inl ⟨b, mem_allBlocks_ready hbmem, by omega, by omega⟩
      · intro hf
        rcases hf with ⟨x, hx, hxf⟩ | hle
        · simp only [allBlocks, Option.toList, List.mem_append,
            List.mem_singleton] at hx
          rcases hx with hx | hx
          · subst hx
            obtain ⟨h1, h2⟩ := hxf
            simp only at h1 h2
            omega
          · obtain ⟨h1, h2⟩ := hxf
            obtain ⟨b1, b2, b3, b4⟩ := hbo x (mem_allBlocks_ready (hrest x hx))
            rcases hpwb2.1 x hx with hdj | hdj <;> omega
        · simp only at hle
          omega
    | nil =>
      have hfit2 : (0 : Nat) + size ≤ self.block_size := by omega
      have hres : poolBumpAllocate self size =
          (self.next_address,
            { self with
              dried_blocks := self.dried_blocks ++ [cur],
              current_block := some ⟨self.next_address, self.block_size, 0 + size⟩,
              next_address := self.next_address + self.block_size }) := by
        unfold poolBumpAllocate
        rw [hc]
        simp only [hba]
        rw [if_pos trivial]
        have hadd : bsal_memory_pool_add_block
            { self with
              dried_blocks := self.dried_blocks ++ [cur],
              current_block := none } =
            { self with
              dried_blocks := self.dried_blocks ++ [cur],
              current_block := some ⟨self.next_address, self.block_size, 0⟩,
              next_address := self.next_address + self.block_size } := by
          unfold bsal_memory_pool_add_block
          simp only [hr]
        rw [hadd]
        have hba2 : bsal_memory_block_allocate
            ⟨self.next_address, self.block_size, 0⟩ size =
            (self.next_address,
              ⟨self.next_address, self.block_size, 0 + size⟩) := by
          unfold bsal_memory_block_allocate
          rw [if_pos hfit2]
          simp
        simp only [hba2]
      rw [hres]
      have hempty : allBlocks self = [cur] := by
        rw [hall, hr]
      refine ⟨?_, rfl, rfl, rfl, by omega, Or.inr (by omega), ?_⟩
      · have hfut : ∀ q,
            FutureFresh { self with
              dried_blocks := self.dried_blocks ++ [cur],
              current_block := some ⟨self.next_address, self.block_size, 0 + size⟩,
              next_address := self.next_address + self.block_size } q →
            self.next_address ≤ q := by
          intro q hf
          rcases hf with ⟨x, hx, hxf⟩ | hle
          · simp only [allBlocks, Option.toList, List.mem_append,
              List.mem_singleton, hr] at hx
            rcases hx with hx | hx
            · subst hx
              obtain ⟨h1, h2⟩ := hxf
              simp only at h1 h2
              omega
            · simp at hx
          · simp only at hle
            omega
        refine ⟨hm, hbk, hbn, hd, ?_, ?_, ?_, ?_, ?_, by simp; omega⟩
        · intro q hq hf
          exact hfm q hq (Or.inr (hfut q hf))
        · intro q hq hf
          exact hfb q hq (Or.inr (hfut q hf))
        · intro x hx
          simp only [allBlocks, Option.toList, List.mem_append,
            List.mem_singleton, hr] at hx
          rcases hx with hx | hx
          · subst hx
            refine ⟨by simp, by simp; omega, by simp; omega, by simp⟩
          · simp at hx
        · intro x hx
          simp only [hr] at hx
          simp at hx
        · have hshape : allBlocks { self with
              dried_blocks := self.dried_blocks ++ [cur],
              current_block := some ⟨self.next_address, self.block_size, 0 + size⟩,
              ready_blocks := self.ready_blocks,
              next_address := self.next_address + self.block_size } =
              [⟨self.next_address, self.block_size, 0 + size⟩] := by
            simp [allBlocks, hr]
          rw [show allBlocks _ = [(⟨self.next_address, self.block_size, 0 + size⟩ : bsal_memory_block)] from by simp [allBlocks, hr]]
          simp
      · intro hf
        rcases hf with ⟨x, hx, hxf⟩ | hle
        · simp only [allBlocks, Option.toList, List.mem_append,
            List.mem_singleton, hr] at hx
          rcases hx with hx | hx
          · subst hx
            obtain ⟨h1, h2⟩ := hxf
            simp only at h1 h2
            omega
          · simp at hx
        · simp only at hle
          omega

/-- The bump path preserves the invariant and (when tracking is on) records
the returned non-null pointer in the map and nowhere in the bin. -/
theorem poolBumpPath_spec (self : bsal_memory_pool) (size : Nat)
    (h : MemoryPoolInv self) (hpos : 0 < size) (hsmall : size < self.block_size) :
    MemoryPoolInv (poolBumpPath self size).2 ∧
    (poolBumpPath self size).2.flag_tracking = self.flag_tracking ∧
    (self.flag_tracking = true →
      (poolBumpPath self size).1 ∈
        (poolBumpPath self size).2.allocated_blocks.map Prod.fst) ∧
    (poolBumpPath self size).1 ∉ binPtrs (poolBumpPath self size).2.recycle_bin ∧
    (poolBumpPath self size).1 ≠ 0 := by
  obtain ⟨hinv1, hsome1, hbin1, hmap1, hbs1, hft1⟩ := poolEnsureBlock_spec self h
  obtain ⟨hinv2, hbin2, hmap2, hft2, hne, hfresh, hnfresh⟩ :=
    poolBumpAllocate_spec (poolEnsureBlock self) size hinv1 hsome1 hpos
      (by omega)
  have hnm : (poolBumpAllocate (poolEnsureBlock self) size).1 ∉
      (poolEnsureBlock self).allocated_blocks.map Prod.fst := by
    intro hmem
    exact MemoryPoolInv.fresh_map hinv1 _ hmem hfresh
  have hnb : (poolBumpAllocate (poolEnsureBlock self) size).1 ∉
      binPtrs (poolEnsureBlock self).recycle_bin := by
    intro hmem
    exact MemoryPoolInv.fresh_bin hinv1 _ hmem hfresh
  obtain ⟨km, kbk, kbn, kd, kfm, kfb, kbo, krr, kbd, knp⟩ := hinv2
  have hres : poolBumpPath self size =
      (if (poolBumpAllocate (poolEnsureBlock self) size).2.flag_tracking then
        ((poolBumpAllocate (poolEnsureBlock self) size).1,
          { (poolBumpAllocate (poolEnsureBlock self) size).2 with
            allocated_blocks :=
              mapInsert (poolBumpAllocate (poolEnsureBlock self) size).2.allocated_blocks
                (poolBumpAllocate (poolEnsureBlock self) size).1 size })
      else poolBumpAllocate (poolEnsureBlock self) size) := rfl
  by_cases htr : (poolBumpAllocate (poolEnsureBlock self) size).2.flag_tracking = true
  · have hres2 : poolBumpPath self size =
        ((poolBumpAllocate (poolEnsureBlock self) size).1,
          { (poolBumpAllocate (poolEnsureBlock self) size).2 with
            allocated_blocks :=
              mapInsert (poolBumpAllocate (poolEnsureBlock self) size).2.allocated_blocks
                (poolBumpAllocate (poolEnsureBlock self) size).1 size }) := by
      rw [hres, if_pos htr]
    rw [hres2]
    have hnone : mapGet (poolBumpAllocate (poolEnsureBlock self) size).2.allocated_blocks
        (poolBumpAllocate (poolEnsureBlock self) size).1 = none := by
      rw [mapGet_eq_none_iff, hmap2]
      exact hnm
    have hkeys := mapInsert_keys_of_none size hnone
    refine ⟨?_, by simpa using hft2.trans hft1, ?_, ?_, hne⟩
    · refine ⟨?_, kbk, kbn, ?_, ?_, ?_, kbo, krr, kbd, knp⟩
      · simp only [hkeys]
        rw [List.nodup_append]
        refine ⟨km, by simp, ?_⟩
        simp only [List.disjoint_singleton]
        rwa [hmap2]
      · intro x hx
        simp only [hkeys, List.mem_append, List.mem_singleton] at hx
        rcases hx with hx | hx
        · exact kd x hx
        · subst hx
          rwa [hbin2]
      · intro x hx hf
        simp only [hkeys, List.mem_append, List.mem_singleton] at hx
        rcases hx with hx | hx
        · exact kfm x hx hf
        · subst hx
          exact hnfresh hf
      · intro x hx hf
        exact kfb x hx hf
    · intro _
      simp [hkeys]
    · rwa [hbin2]
  · have htrf : self.flag_tracking = false := by
      rw [← hft1, ← hft2]
      simpa using htr
    have hres2 : poolBumpPath self size =
        poolBumpAllocate (poolEnsureBlock self) size := by
      rw [hres, if_neg htr]
    rw [hres2]
    refine ⟨⟨km, kbk, kbn, kd, kfm, kfb, kbo, krr, kbd, knp⟩,
      hft2.trans hft1, ?_, ?_, hne⟩
    · intro hcon
      rw [hcon] at htrf
      cases htrf
    · rwa [hbin2]

/-- A pointer in a sliced bin list is in the combined pointer list. -/
theorem not_mem_slice_of_nodup {A B rest : List Nat} {p : Nat}
    (h : (A ++ ((p :: rest) ++ B)).Nodup) : p ∉ A ++ (rest ++ B) := by
  have hperm : List.Perm (A ++ ((p :: rest) ++ B)) (p :: (A ++ (rest ++ B))) := by
    have h2 : List.Perm (A ++ (p :: (rest ++ B))) (p :: (A ++ (rest ++ B))) :=
      List.perm_middle
    simpa using h2
  have h2 := hperm.nodup_iff.mp h
  exact (List.nodup_cons.mp h2).1

/-- Freeing any pointer preserves the pool invariant. -/
theorem bsal_memory_pool_free_inv (self : bsal_memory_pool) (p : Nat)
    (h : MemoryPoolInv self) : MemoryPoolInv (bsal_memory_pool_free self p) := by
  unfold bsal_memory_pool_free
  by_cases hp : p = 0
  · rw [if_pos hp]; exact h
  rw [if_neg hp]
  by_cases hdis : self.flag_disabled = true
  · rw [if_pos hdis]; exact h
  rw [if_neg hdis]
  by_cases hlg : p ∈ self.large_blocks
  · rw [if_pos hlg]
    exact MemoryPoolInv.transport h rfl rfl rfl rfl rfl (le_refl _)
  rw [if_neg hlg]
  by_cases htr : self.flag_tracking = false
  · rw [if_pos htr]; exact h
  rw [if_neg htr]
  cases hg : mapGet self.allocated_blocks p with
  | none => exact h
  | some s =>
    obtain ⟨hm, hbk, hbn, hd, hfm, hfb, hbo, hrr, hbd, hnp⟩ := h
    have hpmem : p ∈ self.allocated_blocks.map Prod.fst := mem_keys_of_mapGet_some hg
    have hpnbin : p ∉ binPtrs self.recycle_bin := hd p hpmem
    have hperm := binPtrs_binEnqueue_perm self.recycle_bin s p
    have hmemiff : ∀ x, x ∈ binPtrs (binEnqueue self.recycle_bin s p) ↔
        x ∈ binPtrs self.recycle_bin ∨ x = p := by
      intro x
      rw [hperm.mem_iff]
      simp
    have hkeys : ∀ x, x ∈ (mapDelete self.allocated_blocks p).map Prod.fst →
        x ∈ self.allocated_blocks.map Prod.fst := by
      intro x hx
      exact ((mapDelete_sublist self.allocated_blocks p).map Prod.fst).subset hx
    have hpdel : p ∉ (mapDelete self.allocated_blocks p).map Prod.fst :=
      mapDelete_not_mem hm
    refine ⟨?_, ?_, ?_, ?_, ?_, ?_, hbo, hrr, hbd, hnp⟩
    · exact List.Nodup.sublist ((mapDelete_sublist self.allocated_blocks p).map Prod.fst) hm
    · exact binEnqueue_keys_nodup s p hbk
    · rw [hperm.nodup_iff]
      rw [List.nodup_append]
      exact ⟨hbn, by simp, by simpa [List.disjoint_singleton] using hpnbin⟩
    · intro x hx hxin
      rcases (hmemiff x).mp hxin with hx2 | hx2
      · exact hd x (hkeys x hx) hx2
      · subst hx2
        exact hpdel hx
    · intro x hx hf
      exact hfm x (hkeys x hx) hf
    · intro x hx hf
      rcases (hmemiff x).mp hx with hx2 | hx2
      · exact hfb x hx2 hf
      · subst hx2
        exact hfm x hpmem hf

/-- The recycling branch of the private allocator: with a non-empty queue
for the size, the head pointer moves from the bin into the map, and the
invariant is preserved. -/
theorem allocate_private_dequeue_spec (self : bsal_memory_pool)
    (size pt : Nat) (rest : List Nat) (h : MemoryPoolInv self)
    (htr : self.flag_tracking = true) (hdis : self.flag_disabled = false)
    (h0 : size ≠ 0) (hsmall : size < self.block_size)
    (hq : mapGet self.recycle_bin size = some (pt :: rest)) :
    (bsal_memory_pool_allocate_private self size).1 = pt ∧
    MemoryPoolInv (bsal_memory_pool_allocate_private self size).2 ∧
    pt ∈ (bsal_memory_pool_allocate_private self size).2.allocated_blocks.map Prod.fst ∧
    pt ∉ binPtrs (bsal_memory_pool_allocate_private self size).2.recycle_bin := by
  obtain ⟨hm, hbk, hbn, hd, hfm, hfb, hbo, hrr, hbd, hnp⟩ := h
  obtain ⟨A, B, hAB1, hAB2⟩ := binPtrs_mapInsert_decomp _ _ _ hq
  have hptbin : pt ∈ binPtrs self.recycle_bin := by
    rw [hAB1]; simp
  have hptnm : pt ∉ self.allocated_blocks.map Prod.fst := fun hmem => hd pt hmem hptbin
  have hget_none : mapGet self.allocated_blocks pt = none :=
    (mapGet_eq_none_iff _ _).mpr hptnm
  have hkeys2 := mapInsert_keys_of_none size hget_none
  have hbin2 : binPtrs (mapInsert self.recycle_bin size rest) = A ++ (rest ++ B) :=
    hAB2 rest
  have hptnb2 : pt ∉ A ++ (rest ++ B) :=
    not_mem_slice_of_nodup (by rw [hAB1] at hbn; exact hbn)
  have hmemb2 : ∀ x, x ∈ A ++ (rest ++ B) → x ∈ binPtrs self.recycle_bin := by
    intro x hx
    rw [hAB1]
    simp only [List.mem_append, List.mem_cons] at hx ⊢
    tauto
  have hres : bsal_memory_pool_allocate_private self size =
      (pt, { self with
        recycle_bin := mapInsert self.recycle_bin size rest,
        allocated_blocks := mapInsert self.allocated_blocks pt size }) := by
    unfold bsal_memory_pool_allocate_private
    rw [if_neg h0, if_neg (by simp [hdis]), if_neg (by omega)]
    have hsc : (if self.flag_tracking = true then mapGet self.recycle_bin size
        else none) = some (pt :: rest) := by
      rw [if_pos htr, hq]
    rw [hsc]
    simp only [htr, if_true]
  rw [hres]
  refine ⟨rfl, ?_, ?_, ?_⟩
  · refine ⟨?_, ?_, ?_, ?_, ?_, ?_, hbo, hrr, hbd, hnp⟩
    · simp only [hkeys2]
      rw [List.nodup_append]
      exact ⟨hm, by simp, by simpa [List.disjoint_singleton] using hptnm⟩
    · rw [mapInsert_keys_of_some rest hq]
      exact hbk
    · rw [hbin2]
      refine List.Nodup.sublist ?_ (by rw [hAB1] at hbn; exact hbn)
      refine List.Sublist.append_left ?_ A
      have : List.Sublist (rest ++ B) (pt :: (rest ++ B)) :=
        List.sublist_cons_self _ _
      simpa using this
    · intro x hx hxin
      rw [hbin2] at hxin
      simp only [hkeys2, List.mem_append, List.mem_singleton] at hx
      rcases hx with hx | hx
      · exact hd x hx (hmemb2 x hxin)
      · subst hx
        exact hptnb2 hxin
    · intro x hx hf
      simp only [hkeys2, List.mem_append, List.mem_singleton] at hx
      rcases hx with hx | hx
      · exact hfm x hx hf
      · subst hx
        exact hfb x hptbin hf
    · intro x hx hf
      rw [hbin2] at hx
      exact hfb x (hmemb2 x hx) hf
  · simp [hkeys2]
  · rw [show ({ self with
        recycle_bin := mapInsert self.recycle_bin size rest,
        allocated_blocks := mapInsert self.allocated_blocks pt size }
          : bsal_memory_pool).recycle_bin =
      mapInsert self.recycle_bin size rest from rfl, hbin2]
    exact hptnb2

/-- Every private allocation preserves the pool invariant. -/
theorem bsal_memory_pool_allocate_private_inv (self : bsal_memory_pool)
    (size : Nat) (h : MemoryPoolInv self) :
    MemoryPoolInv (bsal_memory_pool_allocate_private self size).2 := by
  by_cases h0 : size = 0
  · rw [show bsal_memory_pool_allocate_private self size = (0, self) from by
      unfold bsal_memory_pool_allocate_private; rw [if_pos h0]]
    exact h
  by_cases hdis : self.flag_disabled = true
  · rw [show bsal_memory_pool_allocate_private self size =
        (self.next_address,
          { self with next_address := self.next_address + size }) from by
      unfold bsal_memory_pool_allocate_private; rw [if_neg h0, if_pos hdis]]
    exact MemoryPoolInv.transport h rfl rfl rfl rfl rfl (by simp)
  by_cases hbs : self.block_size ≤ size
  · rw [show bsal_memory_pool_allocate_private self size =
        (self.next_address,
          { self with
            large_blocks := setAdd self.large_blocks self.next_address,
            next_address := self.next_address + size }) from by
      unfold bsal_memory_pool_allocate_private
      rw [if_neg h0, if_neg hdis, if_pos hbs]]
    exact MemoryPoolInv.transport h rfl rfl rfl rfl rfl (by simp)
  have hbump : ∀ hsc : (if self.flag_tracking = true then
      mapGet self.recycle_bin size else none) = none ∨
      (if self.flag_tracking = true then mapGet self.recycle_bin size
        else none) = some [],
      bsal_memory_pool_allocate_private self size = poolBumpPath self size := by
    intro hsc
    unfold bsal_memory_pool_allocate_private
    rw [if_neg h0, if_neg hdis, if_neg hbs]
    rcases hsc with hsc | hsc
    · rw [hsc]
    · rw [hsc]
  by_cases htr : self.flag_tracking = true
  · cases hq : mapGet self.recycle_bin size with
    | none =>
      rw [hbump (Or.inl (by rw [if_pos htr, hq]))]
      exact (poolBumpPath_spec self size h (by omega) (by omega)).1
    | some q =>
      cases q with
      | nil =>
        rw [hbump (Or.inr (by rw [if_pos htr, hq]))]
        exact (poolBumpPath_spec self size h (by omega) (by omega)).1
      | cons pt rest =>
        exact (allocate_private_dequeue_spec self size pt rest h htr
          (by simpa using hdis) h0 (by omega) hq).2.1
  · rw [hbump (Or.inl (by rw [if_neg htr]))]
    exact (poolBumpPath_spec self size h (by omega) (by omega)).1

/-- When the bin does not serve the request, the private allocator is the
bump path. -/
theorem allocate_private_bump_eq (self : bsal_memory_pool) (size : Nat)
    (h0 : size ≠ 0) (hdis : ¬ self.flag_disabled = true)
    (hbs : ¬ self.block_size ≤ size)
    (hsc : (if self.flag_tracking = true then mapGet self.recycle_bin size
        else none) = none ∨
      (if self.flag_tracking = true then mapGet self.recycle_bin size
        else none) = some []) :
    bsal_memory_pool_allocate_private self size = poolBumpPath self size := by
  unfold bsal_memory_pool_allocate_private
  rw [if_neg h0, if_neg hdis, if_neg hbs]
  rcases hsc with hsc | hsc
  · rw [hsc]
  · rw [hsc]

/-- A freshly initialized pool satisfies the invariant. -/
theorem memoryPoolInv_init (bs : Nat) : MemoryPoolInv (bsal_memory_pool_init bs) := by
  refine ⟨?_, ?_, ?_, ?_, ?_, ?_, ?_, ?_, ?_, ?_⟩ <;>
    simp [bsal_memory_pool_init, binPtrs, allBlocks]

/-- C2: on a tracking-enabled pool satisfying the invariant, every private
allocation and every free preserves the invariant (so a tracked pointer is
never in both the map and the bin, and never handed out while in either); a
small allocation lands its pointer in the map and nowhere in the bin; a
recycled allocation returns exactly the head of the bin queue; and freeing a
tracked pointer moves it from the map into the bin. -/
theorem claim_C2_memory_pool_tracking_invariant (self : bsal_memory_pool)
    (hinv : MemoryPoolInv self) (htrack : self.flag_tracking = true) :
    (∀ size, MemoryPoolInv (bsal_memory_pool_allocate_private self size).2) ∧
    (∀ p, MemoryPoolInv (bsal_memory_pool_free self p)) ∧
    (∀ size, self.flag_disabled = false → 0 < size → size < self.block_size →
      (bsal_memory_pool_allocate_private self size).1 ∈
        (bsal_memory_pool_allocate_private self size).2.allocated_blocks.map Prod.fst ∧
      (bsal_memory_pool_allocate_private self size).1 ∉
        binPtrs (bsal_memory_pool_allocate_private self size).2.recycle_bin) ∧
    (∀ size pt rest, self.flag_disabled = false → 0 < size →
      size < self.block_size →
      mapGet self.recycle_bin size = some (pt :: rest) →
      (bsal_memory_pool_allocate_private self size).1 = pt) ∧
    (∀ p s, self.flag_disabled = false → p ≠ 0 → p ∉ self.large_blocks →
      mapGet self.allocated_blocks p = some s →
      p ∉ (bsal_memory_pool_free self p).allocated_blocks.map Prod.fst ∧
      p ∈ binPtrs (bsal_memory_pool_free self p).recycle_bin) := by
  refine ⟨?_, ?_, ?_, ?_, ?_⟩
  · intro size
    exact bsal_memory_pool_allocate_private_inv self size hinv
  · intro p
    exact bsal_memory_pool_free_inv self p hinv
  · intro size hdis hpos hsmall
    cases hq : mapGet self.recycle_bin size with
    | none =>
      rw [allocate_private_bump_eq self size (by omega) (by simp [hdis])
        (by omega) (Or.inl (by rw [if_pos htrack, hq]))]
      obtain ⟨_, _, hmem, hnb, _⟩ := poolBumpPath_spec self size hinv hpos hsmall
      exact ⟨hmem htrack, hnb⟩
    | some q =>
      cases q with
      | nil =>
        rw [allocate_private_bump_eq self size (by omega) (by simp [hdis])
          (by omega) (Or.inr (by rw [if_pos htrack, hq]))]
        obtain ⟨_, _, hmem, hnb, _⟩ := poolBumpPath_spec self size hinv hpos hsmall
        exact ⟨hmem htrack, hnb⟩
      | cons pt rest =>
        obtain ⟨he, _, hmem, hnb⟩ := allocate_private_dequeue_spec self size pt
          rest hinv htrack hdis (by omega) hsmall hq
        rw [he]
        exact ⟨hmem, hnb⟩
  · intro size pt rest hdis hpos hsmall hq
    exact (allocate_private_dequeue_spec self size pt rest hinv htrack hdis
      (by omega) hsmall hq).1
  · intro p s hdis hp hlarge hg
    have hfree : bsal_memory_pool_free self p =
        { self with
          recycle_bin := binEnqueue self.recycle_bin s p,
          allocated_blocks := mapDelete self.allocated_blocks p } := by
      unfold bsal_memory_pool_free
      rw [if_neg hp, if_neg (by simp [hdis]), if_neg hlarge,
        if_neg (by simp [htrack]), hg]
    rw [hfree]
    constructor
    · exact mapDelete_not_mem (MemoryPoolInv.map_nodup hinv)
    · exact (binPtrs_binEnqueue_perm self.recycle_bin s p).mem_iff.mpr (by simp)

/-- Concrete instance of the C2 theorem: on a fresh tracking pool with block
size 64, a 16-byte allocation preserves the invariant and its pointer sits
in the allocated map and not in the recycle bin. -/
theorem claim_C2_witness :
    MemoryPoolInv (bsal_memory_pool_allocate_private (bsal_memory_pool_init 64) 16).2 ∧
    (bsal_memory_pool_allocate_private (bsal_memory_pool_init 64) 16).1 ∈
      (bsal_memory_pool_allocate_private
        (bsal_memory_pool_init 64) 16).2.allocated_blocks.map Prod.fst ∧
    (bsal_memory_pool_allocate_private (bsal_memory_pool_init 64) 16).1 ∉
      binPtrs (bsal_memory_pool_allocate_private
        (bsal_memory_pool_init 64) 16).2.recycle_bin := by
  have h := claim_C2_memory_pool_tracking_invariant (bsal_memory_pool_init 64)
    (memoryPoolInv_init 64) rfl
  have h3 := h.2.2.1 16 rfl (by decide) (by decide)
  exact ⟨h.1 16, h3.1, h3.2⟩
